import Mathlib

/-!
Verification of the rhdl compiler middle end against its design document.

The development shallowly embeds the Path / bit-layout engine of
`rhdl-core/src/path.rs` and the compilation driver of
`rhdl-core/src/compiler/driver.rs`.  Rust `Result<T>` values become
`Except String T`; machine `usize` values become `Nat` (no arithmetic here
can overflow in the source: all quantities are bit counts and list lengths).

The `Kind` type algebra and its `bits()` method live outside the files at
hand, so they are modelled from the design document (§3), which defines the
variants and the recursive width computation.
-/

namespace Rhdl

/-- Modelled from the spec: a slot reference (a virtual register or literal of
the register IR) carried by a dynamic index.  The path engine treats it as an
opaque identifier; only equality matters here. -/
inductive Slot where
  | Register (id : Nat)
  | Literal (id : Nat)
deriving DecidableEq, Repr

/-- One navigation step of a `Path` (path.rs, `enum PathElement`). -/
inductive PathElement where
  | Index (i : Nat)
  | Field (name : String)
  | EnumDiscriminant
  | EnumPayload (name : String)
  | EnumPayloadByValue (discriminant : Int)
  | DynamicIndex (slot : Slot)
deriving DecidableEq, Repr

/-- A symbolic navigation from a root value to a sub-value
(path.rs, `struct Path`). -/
structure Path where
  elements : List PathElement
deriving DecidableEq, Repr

/-- Whether a path element is a `DynamicIndex` (the `matches!` test used by
`Path::any_dynamic`). -/
def PathElement.is_dynamic : PathElement → Bool
  | .DynamicIndex _ => true
  | _ => false

/-- path.rs `Path::any_dynamic`: whether any element is a dynamic index. -/
def Path.any_dynamic (p : Path) : Bool :=
  p.elements.any PathElement.is_dynamic

/-- path.rs `Path::join`: append the other path's elements. -/
def Path.join (p : Path) (other : Path) : Path :=
  ⟨p.elements ++ other.elements⟩

/-- path.rs `Path::is_prefix_of`: the receiver is no longer than `other` and
agrees with it elementwise on the zipped prefix. -/
def Path.is_prefix_of (p : Path) (other : Path) : Bool :=
  decide (p.elements.length ≤ other.elements.length) &&
    (p.elements.zip other.elements).all (fun ab => ab.1 == ab.2)

/-- path.rs `Path::strip_prefix`: fails unless `q.is_prefix_of p`; on success
returns the remaining elements of `p` after `q` (`self.elements[prefix.len()..]`). -/
def Path.strip_prefix (p : Path) (q : Path) : Except String Path :=
  if ¬ Path.is_prefix_of q p then .error "Path is not a prefix of self"
  else .ok ⟨p.elements.drop q.elements.length⟩

/-- Discriminant bit placement of an enum layout (spec §3: alignment ∈
LowBits/HighBits; the code names the two cases Lsb/Msb). -/
inductive DiscriminantAlignment where
  | Lsb
  | Msb
deriving DecidableEq, Repr

/-- Signedness of the discriminant field of an enum layout. -/
inductive DiscriminantType where
  | Signed
  | Unsigned
deriving DecidableEq, Repr

/-- Modelled from the spec: discriminant layout = bit width, alignment and
signedness (spec §3, "Discriminant layout = {bit width, alignment ∈
{LowBits, HighBits}, signedness}"). -/
structure DiscriminantLayout where
  width : Nat
  alignment : DiscriminantAlignment
  ty : DiscriminantType
deriving DecidableEq, Repr

/-- Modelled from the spec: the concrete value-shape algebra `Kind`, whose
defining module is not among the files at hand (spec §3): bit vectors
(unsigned and signed), the zero-width kind, tuples, fixed-length arrays,
named structs with ordered fields, and enums with named variants (name,
discriminant value, payload kind) plus a discriminant layout. -/
inductive Kind where
  | Bits (width : Nat)
  | Signed (width : Nat)
  | Empty
  | Tuple (elements : List Kind)
  | Array (base : Kind) (size : Nat)
  | Struct (name : String) (fields : List (String × Kind))
  | Enum (name : String) (variants : List (String × Int × Kind)) (layout : DiscriminantLayout)

mutual

/-- Modelled from the spec (§3): `bits(kind)`, the total width in bits —
array: length × element width; tuple/struct: sum of member widths; enum:
discriminant width + maximum payload width (`Kind.bits_sum`,
`Kind.bits_fields` and `Kind.bits_variants` are the list folds spelled out
for the nested recursion). -/
def Kind.bits : Kind → Nat
  | .Bits width => width
  | .Signed width => width
  | .Empty => 0
  | .Tuple elements => Kind.bits_sum elements
  | .Array base size => size * Kind.bits base
  | .Struct _ fields => Kind.bits_fields fields
  | .Enum _ variants layout => layout.width + Kind.bits_variants variants

/-- Sum of the widths of a list of kinds (tuple members). -/
def Kind.bits_sum : List Kind → Nat
  | [] => 0
  | k :: rest => Kind.bits k + Kind.bits_sum rest

/-- Sum of the widths of a list of named struct fields. -/
def Kind.bits_fields : List (String × Kind) → Nat
  | [] => 0
  | (_, k) :: rest => Kind.bits k + Kind.bits_fields rest

/-- Maximum payload width over a list of enum variants. -/
def Kind.bits_variants : List (String × Int × Kind) → Nat
  | [] => 0
  | (_, _, k) :: rest => max (Kind.bits k) (Kind.bits_variants rest)

end

/-- path.rs `Kind::make_bits`: an unsigned bit vector. -/
def Kind.make_bits (width : Nat) : Kind := Kind.Bits width

/-- path.rs `Kind::make_signed`: a signed bit vector. -/
def Kind.make_signed (width : Nat) : Kind := Kind.Signed width

/-- A half-open bit interval, Rust's `Range<usize>` (`end` is a Lean keyword,
so the upper bound is called `stop`). -/
structure BitRange where
  start : Nat
  stop : Nat
deriving DecidableEq, Repr

/-- The element-by-element walk of path.rs `bit_range` (lines 196-325): the
`for p in &path.elements` loop carrying the running `(range, kind)` pair.
Each arm mirrors one `PathElement` case of the source `match`; the
`Field`/`EnumPayload` arms use `find?` directly in place of the source's
membership test followed by an unwrapped `find`, which is the same function. -/
def bit_range_loop : BitRange → Kind → List PathElement → Except String (BitRange × Kind)
  | range, kind, [] => .ok (range, kind)
  | range, kind, p :: rest =>
    match p with
    | .Index i =>
      match kind with
      | .Array base size =>
          let element_size := Kind.bits base
          if size ≤ i then .error "Array index out of bounds"
          else bit_range_loop
            ⟨range.start + i * element_size, range.start + (i + 1) * element_size⟩ base rest
      | .Tuple elements =>
          if h : elements.length ≤ i then .error "Tuple index out of bounds"
          else
            let offset := Kind.bits_sum (elements.take i)
            let element := elements.get ⟨i, Nat.lt_of_not_le h⟩
            bit_range_loop
              ⟨range.start + offset, range.start + offset + Kind.bits element⟩ element rest
      | .Struct _ fields =>
          if h : fields.length ≤ i then .error "Struct index out of bounds"
          else
            let offset := Kind.bits_fields (fields.take i)
            let fkind := (fields.get ⟨i, Nat.lt_of_not_le h⟩).2
            bit_range_loop
              ⟨range.start + offset, range.start + offset + Kind.bits fkind⟩ fkind rest
      | _ => .error "Indexing non-indexable type"
    | .Field fieldName =>
      match kind with
      | .Struct _ fields =>
          match fields.find? (fun f => f.1 == fieldName) with
          | none => .error "Field not found"
          | some f =>
              let offset := Kind.bits_fields (fields.takeWhile (fun g => !(g.1 == fieldName)))
              bit_range_loop
                ⟨range.start + offset, range.start + offset + Kind.bits f.2⟩ f.2 rest
      | _ => .error "Field indexing not allowed on this type"
    | .EnumDiscriminant =>
      match kind with
      | .Enum _ _ layout =>
          let range2 :=
            match layout.alignment with
            | .Lsb => BitRange.mk range.start (range.start + layout.width)
            | .Msb => BitRange.mk (range.stop - layout.width) range.stop
          let kind2 :=
            if layout.ty = DiscriminantType.Signed then Kind.make_signed layout.width
            else Kind.make_bits layout.width
          bit_range_loop range2 kind2 rest
      | _ => .error "Enum discriminant not valid for non-enum types"
    | .EnumPayload name =>
      match kind with
      | .Enum _ variants layout =>
          match variants.find? (fun v => v.1 == name) with
          | none => .error "Enum payload not found"
          | some v =>
              let field := v.2.2
              let range2 :=
                match layout.alignment with
                | .Lsb => BitRange.mk (range.start + layout.width)
                    (range.start + layout.width + Kind.bits field)
                | .Msb => BitRange.mk range.start (range.start + Kind.bits field)
              bit_range_loop range2 field rest
      | _ => .error "Enum payload not valid for non-enum types"
    | .EnumPayloadByValue disc =>
      match kind with
      | .Enum _ variants layout =>
          match variants.find? (fun v => v.2.1 == disc) with
          | none => .error "Enum payload not found"
          | some v =>
              let field := v.2.2
              let range2 :=
                match layout.alignment with
                | .Lsb => BitRange.mk (range.start + layout.width)
                    (range.start + layout.width + Kind.bits field)
                | .Msb => BitRange.mk range.start (range.start + Kind.bits field)
              bit_range_loop range2 field rest
      | _ => .error "Enum payload not valid for non-enum types"
    | .DynamicIndex _ => .error "Dynamic indices must be resolved before calling bit_range"

/-- path.rs `bit_range`: walk the path starting from `(0..kind.bits(), kind)`. -/
def bit_range (kind : Kind) (path : Path) : Except String (BitRange × Kind) :=
  bit_range_loop ⟨0, Kind.bits kind⟩ kind path.elements

/-- path.rs `sub_kind`: the resulting Kind of `bit_range`. -/
def sub_kind (kind : Kind) (path : Path) : Except String Kind :=
  (bit_range kind path).map (fun rk => rk.2)

/-- Number of dynamic indices in an element list (termination measure for
`path_star`). -/
def count_dynamic (els : List PathElement) : Nat :=
  els.countP (fun e => e.is_dynamic)

/-- path.rs `path_star` (lines 154-188): expand every dynamic index of `path`
into all of its statically possible concrete `Index` values (the source's
`eprintln!` diagnostic is a side channel outside the contract and is not
modelled).  In the branch for a non-dynamic first element the source strips
the one-element prefix off `path`, which yields exactly `rest`
(`strip_prefix_cons_single` below); the `for i in 0..array.size` loop with
`paths.extend(...?)` is the `foldlM` accumulating concatenation. -/
def path_star (kind : Kind) (path : Path) : Except String (List Path) :=
  if ¬ path.any_dynamic then .ok [path]
  else
    match h : path.elements with
    | [] => .ok [path]
    | e :: rest =>
      if hd : e.is_dynamic then
        match kind with
        | .Array _ size =>
            (List.range size).foldlM
              (fun paths i =>
                (path_star kind ⟨PathElement.Index i :: rest⟩).map (fun ps => paths ++ ps))
              []
        | _ => .error "Dynamic index on non-array type"
      else
        match sub_kind kind ⟨[e]⟩ with
        | .error msg => .error msg
        | .ok prefix_kind =>
            (path_star prefix_kind ⟨rest⟩).map
              (fun suffix_star => suffix_star.map (fun suffix => Path.join ⟨[e]⟩ suffix))
termination_by (count_dynamic path.elements, path.elements.length)
decreasing_by
  · apply Prod.Lex.left
    simp only [h, count_dynamic, List.countP_cons]
    simp only [PathElement.is_dynamic.eq_def] at hd
    simp [PathElement.is_dynamic, hd]
  · have hc : count_dynamic rest = count_dynamic path.elements := by
      simp only [h, count_dynamic, List.countP_cons]
      simp only [Bool.not_eq_true] at hd
      simp [hd]
    rw [hc]
    apply Prod.Lex.right
    simp [h]

/-- The count that claim C1 asserts for `path_star`: the product, over every
`DynamicIndex` element of the path, of the length of the `Array` kind at that
position (`none` when the walk to some dynamic element does not go through
well-typed navigation, in which case `path_star` fails too; a zero-length
array makes the whole product 0 with no further positions to visit).
Elements beyond the last dynamic index contribute the empty product 1. -/
def dynamic_index_product (kind : Kind) (els : List PathElement) : Option Nat :=
  if ¬ els.any PathElement.is_dynamic then some 1
  else
    match els with
    | [] => some 1
    | e :: rest =>
      if e.is_dynamic then
        match kind with
        | .Array base size =>
            if size = 0 then some 0
            else (dynamic_index_product base rest).map (fun n => size * n)
        | _ => none
      else
        match sub_kind kind ⟨[e]⟩ with
        | .ok k2 => dynamic_index_product k2 rest
        | .error _ => none

/-! ## The compilation driver (driver.rs)

`compile_kernel`'s front end (assign_node_ids, infer, check_inference,
compile) and the bodies of the passes live in modules that are not among the
files at hand, so the pipeline is embedded parametrically: the front end is
one abstract `Kernel → Except E Obj` function and each pass is an abstract
`Obj → Except E Obj` transformation selected by name.  What driver.rs itself
fixes — which passes run, in which order, how many rounds — is translated
literally. -/

/-- The names of the seven passes `compile_kernel` invokes (six optimization
passes and the two verification passes, driver.rs lines 48-57). -/
inductive PassName where
  | remove_extra_registers
  | remove_unneeded_muxes
  | remove_unused_literals
  | pre_cast_literals
  | remove_useless_casts
  | type_check
  | data_flow_check
deriving DecidableEq, Repr

/-- The body of the `for _pass in 0..2` loop of `compile_kernel`
(driver.rs lines 48-55): the six optimization passes in their fixed order,
each aborting the round on failure (`?`). -/
def optimization_round {Obj E : Type} (pass : PassName → Obj → Except E Obj)
    (obj : Obj) : Except E Obj := do
  let obj ← pass .remove_extra_registers obj
  let obj ← pass .remove_unneeded_muxes obj
  let obj ← pass .remove_extra_registers obj
  let obj ← pass .remove_unused_literals obj
  let obj ← pass .pre_cast_literals obj
  let obj ← pass .remove_useless_casts obj
  pure obj

/-- driver.rs `compile_kernel` (lines 41-59): run the front end, then the
optimization round for each element of `0..2`, then the type-check pass and
the data-flow check pass once each. -/
def compile_kernel {Kern Obj E : Type} (front : Kern → Except E Obj)
    (pass : PassName → Obj → Except E Obj) (kernel : Kern) : Except E Obj := do
  let obj ← front kernel
  let obj ← (List.range 2).foldlM (fun obj _i => optimization_round pass obj) obj
  let obj ← pass .type_check obj
  let obj ← pass .data_flow_check obj
  pure obj

/-- driver.rs `ExternalFunctionCode`: an external function is either an
in-source kernel (here reduced to its function identity, the key the driver
uses) or an externally defined stub. -/
inductive ExternalFunctionCode where
  | kernelFn (fn_id : Nat)
  | foreignStub
deriving DecidableEq, Repr

/-- One external function reference of an Object (driver.rs uses only its
`code` field). -/
structure ExternalFunction where
  code : ExternalFunctionCode
deriving DecidableEq, Repr

/-- The compiled form of one kernel, reduced to the two fields the driver's
closure logic reads: its function identity and its external references. -/
structure Object where
  fn_id : Nat
  externals : List ExternalFunction
deriving DecidableEq, Repr

/-- rhif/module.rs `Module`: all compiled functions keyed by function
identity (the `HashMap` becomes an association list with distinct keys), and
the identity of the top-level function. -/
structure Module where
  objects : List (Nat × Object)
  top : Nat
deriving DecidableEq, Repr

/-- Modelled from the spec: the universe of kernels, keyed by function
identity (§3 "the map is keyed by function identity"; §6 "kernels carry
either an embedded definition or a pre-rendered textual body").
`kernel_externals i` is the external-reference list of the kernel with
identity `i`; `compile_err i` is `some e` when `compile_kernel` fails on that
kernel (inference, lowering, a pass or a verification pass — the driver only
propagates the error) and `none` when it succeeds. -/
structure DesignWorld (E : Type) where
  kernel_externals : Nat → List ExternalFunction
  compile_err : Nat → Option E

/-- Modelled from the spec: `compile_kernel` applied to the kernel with
identity `fn_id` — it fails exactly when `compile_err` says so, and otherwise
yields the Object with that identity and that kernel's external references
(§4.2: lowering records every external callee in the Object). -/
def compile_kernel_model {E : Type} (w : DesignWorld E) (fn_id : Nat) :
    Except E Object :=
  match w.compile_err fn_id with
  | some e => .error e
  | none => .ok { fn_id := fn_id, externals := w.kernel_externals fn_id }

/-- driver.rs `elaborate_design` lines 64-76: collect, over all objects of the
design, the external references whose code is an in-source kernel. -/
def external_kernels (objects : List (Nat × Object)) : List Nat :=
  ((objects.map (fun kv => kv.2.externals)).flatten).filterMap
    (fun f => match f.code with
      | .kernelFn k => some k
      | .foreignStub => none)

/-- The body of the `for kernel in external_kernels` loop of
`elaborate_design` (driver.rs lines 78-86): compile and insert the kernel
only when its identity is a vacant key of the object map. -/
def insert_external {E : Type} (w : DesignWorld E)
    (objs : List (Nat × Object)) (k : Nat) : Except E (List (Nat × Object)) :=
  match objs.lookup k with
  | some _ => .ok objs
  | none => (compile_kernel_model w k).map (fun o => objs ++ [(k, o)])

/-- driver.rs `elaborate_design` (lines 62-88): compile every collected
external kernel whose identity is not yet a key of the design's object map,
inserting the result; a compilation failure aborts the whole call (`?`). -/
def elaborate_design {E : Type} (w : DesignWorld E)
    (objects : List (Nat × Object)) : Except E (List (Nat × Object)) :=
  (external_kernels objects).foldlM (insert_external w) objects

/-- A failure of `compile_design`: either a kernel failed to compile, or the
model's explicit fuel bound on the elaboration loop ran out (the Rust loop
has no bound; `compile_design_closure_exact` shows reachable-set size + 1
rounds always suffice). -/
inductive CompileFailure (E : Type) where
  | out_of_fuel
  | failed (e : E)
deriving DecidableEq, Repr

/-- The `loop` of driver.rs `compile_design` (lines 100-107): elaborate, stop
when the object count did not change, otherwise repeat. -/
def compile_design_loop {E : Type} (w : DesignWorld E) :
    Nat → List (Nat × Object) → Except (CompileFailure E) (List (Nat × Object))
  | 0, _ => .error .out_of_fuel
  | fuel + 1, objects =>
    match elaborate_design w objects with
    | .error e => .error (.failed e)
    | .ok objects2 =>
        if objects2.length = objects.length then .ok objects2
        else compile_design_loop w fuel objects2

/-- driver.rs `compile_design` (lines 91-109): compile the top kernel, seed
the design with it, elaborate to a fixpoint, return the Module. -/
def compile_design {E : Type} (w : DesignWorld E) (fuel : Nat) (top : Nat) :
    Except (CompileFailure E) Module :=
  match compile_kernel_model w top with
  | .error e => .error (.failed e)
  | .ok main =>
      (compile_design_loop w fuel [(main.fn_id, main)]).map
        (fun objects => { objects := objects, top := main.fn_id })

/-- The call-graph edge relation of a design world: the kernel with identity
`b` references the kernel with identity `c` through one of its external
functions. -/
def calls {E : Type} (w : DesignWorld E) (b c : Nat) : Prop :=
  ∃ f ∈ w.kernel_externals b, f.code = .kernelFn c

/-- Transitive reachability from the top kernel along external-kernel
references (the "transitively reachable from the top" of the spec, §4.2). -/
inductive Reaches {E : Type} (w : DesignWorld E) (top : Nat) : Nat → Prop where
  | refl : Reaches w top top
  | step {b c : Nat} : Reaches w top b → calls w b c → Reaches w top c

/-! ## Supporting lemmas -/

/-- Whether a fallible computation failed (Rust's `Result::is_err`). -/
def is_error {ε α : Type} : Except ε α → Bool
  | .error _ => true
  | .ok _ => false

/-- Whether a kind is an `Enum` (for stating the non-enum failure cases). -/
def Kind.is_enum : Kind → Bool
  | .Enum _ _ _ => true
  | _ => false

/-- The invariant `bit_range`'s walk maintains relative to the total width
`N` of the root kind: the running range is well-formed, stays inside
`0..N`, and its length is the width of the running kind. -/
def range_ok (N : Nat) (r : BitRange) (k : Kind) : Prop :=
  r.start ≤ r.stop ∧ r.stop ≤ N ∧ r.stop - r.start = Kind.bits k

/-- The invariant the elaboration loop maintains on the design's object map:
keys are distinct, the top identity is present, and every entry was produced
by a successful compilation of a kernel reachable from the top. -/
def good_map {E : Type} (w : DesignWorld E) (top : Nat)
    (objects : List (Nat × Object)) : Prop :=
  (objects.map Prod.fst).Nodup ∧
  (∃ o, (top, o) ∈ objects) ∧
  ∀ kv ∈ objects, kv.2.fn_id = kv.1 ∧ kv.2.externals = w.kernel_externals kv.1 ∧
    w.compile_err kv.1 = none ∧ Reaches w top kv.1

/-- A two-kernel mutually recursive design world (0 calls 1, 1 calls 0),
with every compilation succeeding. -/
def demo_world : DesignWorld Unit where
  kernel_externals := fun n =>
    if n = 0 then [⟨.kernelFn 1⟩] else if n = 1 then [⟨.kernelFn 0⟩] else []
  compile_err := fun _ => none

/-- A design world where the top kernel 0 calls kernel 1 and compiling
kernel 1 fails. -/
def demo_fail_world : DesignWorld Unit where
  kernel_externals := fun n => if n = 0 then [⟨.kernelFn 1⟩] else []
  compile_err := fun n => if n = 1 then some () else none

/-- `Path::is_prefix_of` decides the list `IsPrefix` relation on elements. -/
theorem is_prefix_of_eq_true_iff :
    ∀ (a b : List PathElement),
      Path.is_prefix_of ⟨a⟩ ⟨b⟩ = true ↔ a <+: b := by
  intro a
  induction a with
  | nil => intro b; simp [Path.is_prefix_of]
  | cons x xs ih =>
    intro b
    cases b with
    | nil => simp [Path.is_prefix_of]
    | cons y ys =>
      rw [List.cons_prefix_cons, ← ih ys]
      simp [Path.is_prefix_of, and_assoc]
      tauto

/-- Stripping the one-element prefix `[e]` off `e :: rest` yields `rest`
(the `strip_prefix` call inside `path_star`). -/
theorem strip_prefix_cons_single (e : PathElement) (rest : List PathElement) :
    Path.strip_prefix ⟨e :: rest⟩ ⟨[e]⟩ = .ok ⟨rest⟩ := by
  have h : Path.is_prefix_of ⟨[e]⟩ ⟨e :: rest⟩ = true := by
    rw [is_prefix_of_eq_true_iff]
    exact ⟨rest, rfl⟩
  simp [Path.strip_prefix, h]

/-- `bit_range_loop` fails on any element list containing a dynamic index:
every arm either fails or recurses on the tail, and the `DynamicIndex` arm
fails no matter the kind. -/
theorem bit_range_loop_any_dynamic_error :
    ∀ (els : List PathElement) (r : BitRange) (k : Kind),
      els.any PathElement.is_dynamic = true →
      is_error (bit_range_loop r k els) = true := by
  intro els
  induction els with
  | nil => intro r k h; simp [PathElement.is_dynamic] at h
  | cons e rest ih =>
    intro r k hany
    have hsplit : e.is_dynamic = true ∨ rest.any PathElement.is_dynamic = true := by
      simpa [List.any_cons] using hany
    cases e with
    | DynamicIndex s => rfl
    | Index i =>
      have hrest : rest.any PathElement.is_dynamic = true := by
        rcases hsplit with h | h
        · simp [PathElement.is_dynamic] at h
        · exact h
      cases k <;> simp only [bit_range_loop] <;>
        first
        | rfl
        | exact ih _ _ hrest
        | (split <;> first | rfl | exact ih _ _ hrest)
    | Field name =>
      have hrest : rest.any PathElement.is_dynamic = true := by
        rcases hsplit with h | h
        · simp [PathElement.is_dynamic] at h
        · exact h
      cases k <;> simp only [bit_range_loop] <;>
        first
        | rfl
        | exact ih _ _ hrest
        | (split <;> first | rfl | exact ih _ _ hrest)
    | EnumDiscriminant =>
      have hrest : rest.any PathElement.is_dynamic = true := by
        rcases hsplit with h | h
        · simp [PathElement.is_dynamic] at h
        · exact h
      cases k <;> simp only [bit_range_loop] <;>
        first
        | rfl
        | exact ih _ _ hrest
        | (split <;> first | rfl | exact ih _ _ hrest)
    | EnumPayload name =>
      have hrest : rest.any PathElement.is_dynamic = true := by
        rcases hsplit with h | h
        · simp [PathElement.is_dynamic] at h
        · exact h
      cases k <;> simp only [bit_range_loop] <;>
        first
        | rfl
        | exact ih _ _ hrest
        | (split <;> first | rfl | exact ih _ _ hrest)
    | EnumPayloadByValue disc =>
      have hrest : rest.any PathElement.is_dynamic = true := by
        rcases hsplit with h | h
        · simp [PathElement.is_dynamic] at h
        · exact h
      cases k <;> simp only [bit_range_loop] <;>
        first
        | rfl
        | exact ih _ _ hrest
        | (split <;> first | rfl | exact ih _ _ hrest)

/-- The width of a tuple member plus the widths of the members before it is
at most the tuple's total width. -/
theorem bits_sum_take_get_le :
    ∀ (l : List Kind) (i : Nat) (h : i < l.length),
      Kind.bits_sum (l.take i) + Kind.bits (l.get ⟨i, h⟩) ≤ Kind.bits_sum l := by
  intro l
  induction l with
  | nil => intro i h; simp at h
  | cons k rest ih =>
    intro i h
    cases i with
    | zero => simp [Kind.bits_sum]
    | succ j =>
      have hj : j < rest.length := by simpa using h
      have := ih j hj
      simp only [List.get_eq_getElem] at this
      simp [Kind.bits_sum]
      omega

/-- The width of a struct field plus the widths of the fields before it is
at most the struct's total width. -/
theorem bits_fields_take_get_le :
    ∀ (l : List (String × Kind)) (i : Nat) (h : i < l.length),
      Kind.bits_fields (l.take i) + Kind.bits (l.get ⟨i, h⟩).2 ≤ Kind.bits_fields l := by
  intro l
  induction l with
  | nil => intro i h; simp at h
  | cons f rest ih =>
    intro i h
    cases i with
    | zero =>
      obtain ⟨a, b⟩ := f
      simp [Kind.bits_fields]
    | succ j =>
      have hj : j < rest.length := by simpa using h
      have := ih j hj
      simp only [List.get_eq_getElem] at this
      obtain ⟨a, b⟩ := f
      simp [Kind.bits_fields]
      omega

/-- The offset-plus-width bound for the field found by name: the widths of
the fields before the first named match, plus the found field's width, are
at most the struct's total width. -/
theorem bits_fields_takeWhile_find_le :
    ∀ (l : List (String × Kind)) (name : String) (f : String × Kind),
      l.find? (fun g => g.1 == name) = some f →
      Kind.bits_fields (l.takeWhile (fun g => !(g.1 == name))) + Kind.bits f.2 ≤
        Kind.bits_fields l := by
  intro l
  induction l with
  | nil => intro name f h; simp at h
  | cons x rest ih =>
    intro name f h
    obtain ⟨a, b⟩ := x
    by_cases hx : a == name
    · rw [List.find?_cons_of_pos _ (by simpa using hx)] at h
      obtain rfl : f = (a, b) := by simpa using h.symm
      simp [hx, Kind.bits_fields]
    · rw [List.find?_cons_of_neg _ (by simpa using hx)] at h
      have := ih name f h
      simp [hx, Kind.bits_fields]
      omega

/-- Every variant's payload width is at most the enum's maximum payload
width. -/
theorem bits_variants_mem_le :
    ∀ (l : List (String × Int × Kind)) (v : String × Int × Kind),
      v ∈ l → Kind.bits v.2.2 ≤ Kind.bits_variants l := by
  intro l
  induction l with
  | nil => intro v h; simp at h
  | cons x rest ih =>
    intro v h
    obtain ⟨a, b, c⟩ := x
    rcases List.mem_cons.mp h with rfl | hr
    · simp [Kind.bits_variants]
    · have := ih v hr
      simp [Kind.bits_variants]
      omega

/-- `bit_range_loop` preserves `range_ok`: arriving at `.ok (r2, k2)` from a
well-formed state inside `0..N` leaves a well-formed range inside `0..N`
whose length is `bits k2`. -/
theorem bit_range_loop_range_ok :
    ∀ (els : List PathElement) (r : BitRange) (k : Kind) (N : Nat)
      (r2 : BitRange) (k2 : Kind),
      range_ok N r k → bit_range_loop r k els = .ok (r2, k2) →
      range_ok N r2 k2 := by
  intro els
  induction els with
  | nil =>
    intro r k N r2 k2 hok h
    simp [bit_range_loop] at h
    obtain ⟨rfl, rfl⟩ := h
    exact hok
  | cons e rest ih =>
    intro r k N r2 k2 hok h
    obtain ⟨ha, hb, hc⟩ := hok
    cases e with
    | DynamicIndex slot => simp [bit_range_loop] at h
    | Index i =>
      cases k with
      | Array base size =>
        simp only [bit_range_loop] at h
        split at h
        · exact absurd h (by simp)
        · rename_i hlt
          have hi : i + 1 ≤ size := by omega
          have hm1 : (i + 1) * Kind.bits base ≤ size * Kind.bits base :=
            Nat.mul_le_mul_right _ hi
          have hm2 : (i + 1) * Kind.bits base = i * Kind.bits base + Kind.bits base :=
            Nat.succ_mul i (Kind.bits base)
          simp only [Kind.bits] at hc
          exact ih _ _ _ _ _ ⟨by dsimp only; omega, by dsimp only; omega, by dsimp only; omega⟩ h
      | Tuple elements =>
        simp only [bit_range_loop] at h
        split at h
        · exact absurd h (by simp)
        · rename_i hlen
          have hle := bits_sum_take_get_le elements i (Nat.lt_of_not_le hlen)
          simp only [Kind.bits] at hc
          exact ih _ _ _ _ _ ⟨by dsimp only; omega, by dsimp only; omega, by dsimp only; omega⟩ h
      | Struct name fields =>
        simp only [bit_range_loop] at h
        split at h
        · exact absurd h (by simp)
        · rename_i hlen
          have hle := bits_fields_take_get_le fields i (Nat.lt_of_not_le hlen)
          simp only [Kind.bits] at hc
          exact ih _ _ _ _ _ ⟨by dsimp only; omega, by dsimp only; omega, by dsimp only; omega⟩ h
      | Bits width => simp [bit_range_loop] at h
      | Signed width => simp [bit_range_loop] at h
      | Empty => simp [bit_range_loop] at h
      | Enum name variants layout => simp [bit_range_loop] at h
    | Field fieldName =>
      cases k with
      | Struct name fields =>
        simp only [bit_range_loop] at h
        split at h
        · exact absurd h (by simp)
        · rename_i f hfind
          have hle := bits_fields_takeWhile_find_le fields fieldName f hfind
          simp only [Kind.bits] at hc
          exact ih _ _ _ _ _ ⟨by dsimp only; omega, by dsimp only; omega, by dsimp only; omega⟩ h
      | Bits width => simp [bit_range_loop] at h
      | Signed width => simp [bit_range_loop] at h
      | Empty => simp [bit_range_loop] at h
      | Tuple elements => simp [bit_range_loop] at h
      | Array base size => simp [bit_range_loop] at h
      | Enum name variants layout => simp [bit_range_loop] at h
    | EnumDiscriminant =>
      cases k with
      | Enum name variants layout =>
        simp only [bit_range_loop] at h
        have hkb :
            Kind.bits
              (if layout.ty = DiscriminantType.Signed then Kind.make_signed layout.width
                else Kind.make_bits layout.width) = layout.width := by
          split <;> simp [Kind.make_signed, Kind.make_bits, Kind.bits]
        simp only [Kind.bits] at hc
        cases halign : layout.alignment
        · rw [halign] at h
          exact ih _ _ _ _ _ ⟨by dsimp only; omega, by dsimp only; omega, by dsimp only; rw [hkb]; omega⟩ h
        · rw [halign] at h
          exact ih _ _ _ _ _ ⟨by dsimp only; omega, by dsimp only; omega, by dsimp only; rw [hkb]; omega⟩ h
      | Bits width => simp [bit_range_loop] at h
      | Signed width => simp [bit_range_loop] at h
      | Empty => simp [bit_range_loop] at h
      | Tuple elements => simp [bit_range_loop] at h
      | Array base size => simp [bit_range_loop] at h
      | Struct name fields => simp [bit_range_loop] at h
    | EnumPayload pname =>
      cases k with
      | Enum name variants layout =>
        simp only [bit_range_loop] at h
        split at h
        · exact absurd h (by simp)
        · rename_i v hfind
          have hv := bits_variants_mem_le variants v (List.mem_of_find?_eq_some hfind)
          simp only [Kind.bits] at hc
          cases halign : layout.alignment
          · rw [halign] at h
            exact ih _ _ _ _ _ ⟨by dsimp only; omega, by dsimp only; omega, by dsimp only; omega⟩ h
          · rw [halign] at h
            exact ih _ _ _ _ _ ⟨by dsimp only; omega, by dsimp only; omega, by dsimp only; omega⟩ h
      | Bits width => simp [bit_range_loop] at h
      | Signed width => simp [bit_range_loop] at h
      | Empty => simp [bit_range_loop] at h
      | Tuple elements => simp [bit_range_loop] at h
      | Array base size => simp [bit_range_loop] at h
      | Struct name fields => simp [bit_range_loop] at h
    | EnumPayloadByValue disc =>
      cases k with
      | Enum name variants layout =>
        simp only [bit_range_loop] at h
        split at h
        · exact absurd h (by simp)
        · rename_i v hfind
          have hv := bits_variants_mem_le variants v (List.mem_of_find?_eq_some hfind)
          simp only [Kind.bits] at hc
          cases halign : layout.alignment
          · rw [halign] at h
            exact ih _ _ _ _ _ ⟨by dsimp only; omega, by dsimp only; omega, by dsimp only; omega⟩ h
          · rw [halign] at h
            exact ih _ _ _ _ _ ⟨by dsimp only; omega, by dsimp only; omega, by dsimp only; omega⟩ h
      | Bits width => simp [bit_range_loop] at h
      | Signed width => simp [bit_range_loop] at h
      | Empty => simp [bit_range_loop] at h
      | Tuple elements => simp [bit_range_loop] at h
      | Array base size => simp [bit_range_loop] at h
      | Struct name fields => simp [bit_range_loop] at h

/-- Destructor for a successful `Except` bind: both stages succeeded. -/
theorem except_bind_ok {E α β : Type} {m : Except E α} {f : α → Except E β}
    {b : β} (h : (m >>= f) = .ok b) : ∃ a, m = .ok a ∧ f a = .ok b := by
  cases m with
  | error e => simp [Bind.bind, Except.bind] at h
  | ok a => exact ⟨a, rfl, by simpa [Bind.bind, Except.bind] using h⟩

/-- A successful optimization round preserves any observation `sim` that
every individual pass preserves. -/
theorem optimization_round_preserves {Obj E In Out : Type}
    (sim : Obj → In → Out) (pass : PassName → Obj → Except E Obj)
    (hpres : ∀ n o o2, pass n o = .ok o2 → ∀ x, sim o2 x = sim o x)
    (o o2 : Obj) (h : optimization_round pass o = .ok o2) :
    ∀ x, sim o2 x = sim o x := by
  unfold optimization_round at h
  obtain ⟨a1, h1, h⟩ := except_bind_ok h
  obtain ⟨a2, h2, h⟩ := except_bind_ok h
  obtain ⟨a3, h3, h⟩ := except_bind_ok h
  obtain ⟨a4, h4, h⟩ := except_bind_ok h
  obtain ⟨a5, h5, h⟩ := except_bind_ok h
  obtain ⟨a6, h6, h⟩ := except_bind_ok h
  obtain rfl : a6 = o2 := by simpa [Pure.pure, Except.pure] using h
  intro x
  rw [hpres _ _ _ h6 x, hpres _ _ _ h5 x, hpres _ _ _ h4 x, hpres _ _ _ h3 x,
    hpres _ _ _ h2 x, hpres _ _ _ h1 x]

/-- A successful `foldlM` of sim-preserving steps preserves `sim`. -/
theorem foldlM_preserves {Obj E In Out α : Type}
    (sim : Obj → In → Out) (step : Obj → α → Except E Obj)
    (hstep : ∀ o a o2, step o a = .ok o2 → ∀ x, sim o2 x = sim o x) :
    ∀ (l : List α) (o o2 : Obj), l.foldlM step o = .ok o2 →
      ∀ x, sim o2 x = sim o x := by
  intro l
  induction l with
  | nil =>
    intro o o2 h x
    obtain rfl : o = o2 := by simpa [List.foldlM, Pure.pure, Except.pure] using h
    rfl
  | cons a rest ih =>
    intro o o2 h x
    rw [List.foldlM_cons] at h
    obtain ⟨o1, h1, h⟩ := except_bind_ok h
    rw [ih o1 o2 h x, hstep o a o1 h1 x]

/-- Destructor for a successful `Except.map`. -/
theorem except_map_ok {E α β : Type} {m : Except E α} {g : α → β} {b : β}
    (h : m.map g = .ok b) : ∃ a, m = .ok a ∧ g a = b := by
  cases m with
  | error e => simp [Except.map] at h
  | ok a => exact ⟨a, rfl, by simpa [Except.map] using h⟩

/-- A path with no dynamic element expands to itself alone (the base case
of `path_star`). -/
theorem path_star_of_not_dynamic (k : Kind) (p : Path)
    (hdyn : p.any_dynamic = false) : path_star k p = .ok [p] := by
  unfold path_star
  simp [hdyn]

/-- The dynamic-index product of a dynamic-free element list is the empty
product 1. -/
theorem dip_of_not_dynamic (k : Kind) (els : List PathElement)
    (hdyn : els.any PathElement.is_dynamic = false) :
    dynamic_index_product k els = some 1 := by
  unfold dynamic_index_product
  simp [hdyn]

/-- No dynamic elements is the same as a zero dynamic count. -/
theorem count_dynamic_eq_zero_iff (els : List PathElement) :
    count_dynamic els = 0 ↔ els.any PathElement.is_dynamic = false := by
  simp [count_dynamic, List.countP_eq_zero, List.any_eq_true]

/-- Stepping the dynamic-index product over a concrete index into an array
within bounds continues against the element kind. -/
theorem dip_index_cons (base : Kind) (size i : Nat) (hi : i < size)
    (rest : List PathElement) :
    dynamic_index_product (.Array base size) (.Index i :: rest) =
      dynamic_index_product base rest := by
  by_cases hrest : rest.any PathElement.is_dynamic = false
  · rw [dip_of_not_dynamic _ _ hrest, dip_of_not_dynamic]
    simp [PathElement.is_dynamic, hrest]
  · simp only [Bool.not_eq_false] at hrest
    have hsub : sub_kind (.Array base size) ⟨[.Index i]⟩ = .ok base := by
      simp [sub_kind, bit_range, bit_range_loop, Nat.not_le.mpr hi, Except.map]
    conv_lhs => rw [dynamic_index_product]
    simp [PathElement.is_dynamic, hrest, hsub]

/-- Characterization of the accumulating concatenation loop of `path_star`'s
dynamic-index branch: a successful fold extends the accumulator with the
concatenation of per-index successful expansions. -/
theorem foldlM_extend_ok {f : Nat → Except String (List Path)} :
    ∀ (idxs : List Nat) (acc res : List Path),
      idxs.foldlM (fun ps i => (f i).map (fun qs => ps ++ qs)) acc = .ok res →
      (∀ i ∈ idxs, ∃ ri, f i = .ok ri) ∧
      ∃ extra : List Path,
        res = acc ++ extra ∧
        (∀ q ∈ extra, ∃ i, i ∈ idxs ∧ ∃ ri, f i = .ok ri ∧ q ∈ ri) ∧
        ∀ n : Nat, (∀ i ∈ idxs, ∀ ri, f i = .ok ri → ri.length = n) →
          extra.length = idxs.length * n := by
  intro idxs
  induction idxs with
  | nil =>
    intro acc res h
    obtain rfl : acc = res := by simpa [List.foldlM, Pure.pure, Except.pure] using h
    exact ⟨by simp, [], by simp, by simp, by simp⟩
  | cons a as ih =>
    intro acc res h
    rw [List.foldlM_cons] at h
    obtain ⟨acc1, hstep, hrest⟩ := except_bind_ok h
    obtain ⟨ra, hfa, hacc1⟩ := except_map_ok hstep
    subst hacc1
    obtain ⟨hallok, extra2, hres, hmem, hlen⟩ := ih (acc ++ ra) res hrest
    refine ⟨?_, ra ++ extra2, by simp [hres], ?_, ?_⟩
    · intro i hi
      rcases List.mem_cons.mp hi with rfl | hi2
      · exact ⟨ra, hfa⟩
      · exact hallok i hi2
    · intro q hq
      rcases List.mem_append.mp hq with hq1 | hq2
      · exact ⟨a, List.mem_cons_self a as, ra, hfa, hq1⟩
      · obtain ⟨i, hi, ri, hfi, hqi⟩ := hmem q hq2
        exact ⟨i, List.mem_cons_of_mem a hi, ri, hfi, hqi⟩
    · intro n hn
      have hra : ra.length = n := hn a (List.mem_cons_self a as) ra hfa
      have hex : extra2.length = as.length * n := by
        apply hlen
        intro i hi ri hfi
        exact hn i (List.mem_cons_of_mem a hi) ri hfi
      have hsm : (as.length + 1) * n = as.length * n + n := Nat.succ_mul _ _
      simp [hra, hex]
      omega

/-- The C1 conclusions in the dynamic-free case: the expansion is the
singleton of the path itself and the product is the empty product. -/
theorem path_star_spec_of_not_dynamic (k : Kind) (p : Path) (l : List Path)
    (hdyn : p.any_dynamic = false) (h : path_star k p = .ok l) :
    (∀ q ∈ l, q.any_dynamic = false ∧ q.elements.length = p.elements.length) ∧
    dynamic_index_product k p.elements = some l.length := by
  rw [path_star_of_not_dynamic k p hdyn] at h
  obtain rfl : [p] = l := by simpa using h
  refine ⟨?_, ?_⟩
  · intro q hq
    obtain rfl : q = p := by simpa using hq
    exact ⟨hdyn, rfl⟩
  · rw [dip_of_not_dynamic]
    · simp
    · simpa [Path.any_dynamic] using hdyn

/-- The C1 property, proved by induction on a bound `c` for the number of
dynamic elements, with an inner induction on a bound `L` for the path
length: the recursion of `path_star` replaces the first dynamic element
(strictly fewer dynamics, same length) or strips one leading concrete
element (same dynamics, shorter). -/
theorem path_star_ok_bounded :
    ∀ (c L : Nat) (k : Kind) (p : Path) (l : List Path),
      count_dynamic p.elements ≤ c →
      p.elements.length ≤ L →
      path_star k p = .ok l →
      ((∀ q ∈ l, q.any_dynamic = false ∧ q.elements.length = p.elements.length) ∧
        dynamic_index_product k p.elements = some l.length) := by
  intro c
  induction c with
  | zero =>
    intro L k p l hc hL h
    have hdyn : p.any_dynamic = false := by
      have := (count_dynamic_eq_zero_iff p.elements).mp (Nat.le_zero.mp hc)
      simpa [Path.any_dynamic] using this
    exact path_star_spec_of_not_dynamic k p l hdyn h
  | succ c ihc =>
    intro L
    induction L with
    | zero =>
      intro k p l hc hL h
      have hnil : p.elements = [] := List.length_eq_zero.mp (Nat.le_zero.mp hL)
      have hdyn : p.any_dynamic = false := by simp [Path.any_dynamic, hnil]
      exact path_star_spec_of_not_dynamic k p l hdyn h
    | succ L ihL =>
      intro k p l hc hL h
      by_cases hdyn0 : p.any_dynamic = false
      · exact path_star_spec_of_not_dynamic k p l hdyn0 h
      · simp only [Bool.not_eq_false] at hdyn0
        unfold path_star at h
        rw [if_neg (by simp [hdyn0])] at h
        split at h
        · rename_i heq
          rw [Path.any_dynamic, heq] at hdyn0
          simp at hdyn0
        · rename_i e rest heq
          have hany : (e :: rest).any PathElement.is_dynamic = true := by
            rw [Path.any_dynamic, heq] at hdyn0
            exact hdyn0
          split at h
          · -- dynamic first element
            rename_i hd
            split at h
            · -- kind is an Array
              rename_i base size
              obtain ⟨hallok, extra, hres, hmem, hlen⟩ :=
                foldlM_extend_ok (List.range size) [] l h
              rw [List.nil_append] at hres
              subst hres
              by_cases hsz : size = 0
              · have hext : l.length = 0 := by
                  have := hlen 0 (by intro i hi ri hri; rw [hsz] at hi; simp at hi)
                  simpa [hsz] using this
                have hlnil : l = [] := List.length_eq_zero.mp hext
                subst hlnil
                refine ⟨by simp, ?_⟩
                rw [heq]
                conv_lhs => rw [dynamic_index_product]
                simp [hany, hd, hsz]
              · have hper : ∀ i ∈ List.range size, ∀ ri,
                    path_star (Kind.Array base size) ⟨PathElement.Index i :: rest⟩ = .ok ri →
                    ((∀ q ∈ ri, q.any_dynamic = false ∧
                        q.elements.length = rest.length + 1) ∧
                      dynamic_index_product base rest = some ri.length) := by
                  intro i hi ri hri
                  have h1 : count_dynamic p.elements = count_dynamic rest + 1 := by
                    rw [heq]; simp [count_dynamic, List.countP_cons, hd]
                  have h2 : count_dynamic (PathElement.Index i :: rest) =
                      count_dynamic rest := by
                    simp [count_dynamic, List.countP_cons, PathElement.is_dynamic]
                  have hcnt : count_dynamic (PathElement.Index i :: rest) ≤ c := by omega
                  have h3 : p.elements.length = rest.length + 1 := by rw [heq]; simp
                  have hlen2 : (PathElement.Index i :: rest).length ≤ L + 1 := by
                    simp only [List.length_cons]
                    omega
                  have hspec := ihc (L + 1) (Kind.Array base size)
                    ⟨PathElement.Index i :: rest⟩ ri hcnt hlen2 hri
                  rw [dip_index_cons base size i (List.mem_range.mp hi) rest] at hspec
                  exact ⟨fun q hq => ⟨(hspec.1 q hq).1, by simpa using (hspec.1 q hq).2⟩,
                    hspec.2⟩
                have h0 : (0 : Nat) ∈ List.range size :=
                  List.mem_range.mpr (Nat.pos_of_ne_zero hsz)
                obtain ⟨r0, hr0⟩ := hallok 0 h0
                have hdip : dynamic_index_product base rest = some r0.length :=
                  (hper 0 h0 r0 hr0).2
                have huni : ∀ i ∈ List.range size, ∀ ri,
                    path_star (Kind.Array base size) ⟨PathElement.Index i :: rest⟩ = .ok ri →
                    ri.length = r0.length := by
                  intro i hi ri hri
                  have h2 := (hper i hi ri hri).2
                  rw [hdip] at h2
                  exact (Option.some_inj.mp h2).symm
                have hl : l.length = size * r0.length := by
                  have := hlen r0.length huni
                  simpa using this
                refine ⟨?_, ?_⟩
                · intro q hq
                  obtain ⟨i, hi, ri, hfi, hqi⟩ := hmem q hq
                  have hq2 := (hper i hi ri hfi).1 q hqi
                  refine ⟨hq2.1, ?_⟩
                  rw [heq]
                  simp [hq2.2]
                · rw [heq]
                  conv_lhs => rw [dynamic_index_product]
                  simp [hany, hd, hsz, hdip, hl]
            · simp at h
          · -- concrete first element
            rename_i hd
            simp only [Bool.not_eq_true] at hd
            split at h
            · simp at h
            · rename_i pk hsub
              obtain ⟨ls, hls, hmap⟩ := except_map_ok h
              have h1 : count_dynamic p.elements = count_dynamic rest := by
                rw [heq]; simp [count_dynamic, List.countP_cons, hd]
              have hcr : count_dynamic rest ≤ c + 1 := by omega
              have h3 : p.elements.length = rest.length + 1 := by rw [heq]; simp
              have hlr : rest.length ≤ L := by omega
              have hspec := ihL pk ⟨rest⟩ ls hcr hlr hls
              refine ⟨?_, ?_⟩
              · intro q hq
                rw [← hmap] at hq
                obtain ⟨s, hs, rfl⟩ := List.mem_map.mp hq
                have hss := hspec.1 s hs
                have hsa : s.elements.any PathElement.is_dynamic = false := by
                  simpa [Path.any_dynamic] using hss.1
                constructor
                · simp [Path.join, Path.any_dynamic, hd, hsa]
                · have h4 : s.elements.length = rest.length := by simpa using hss.2
                  rw [heq]
                  simp [Path.join, h4]
              · rw [heq]
                conv_lhs => rw [dynamic_index_product.eq_def]
                have hll : ls.length = l.length := by rw [← hmap]; simp
                simp [hany, hd, hsub, hspec.2, hll]

/-- An association-list lookup misses exactly when the key is absent. -/
theorem lookup_none_iff :
    ∀ (l : List (Nat × Object)) (k : Nat),
      l.lookup k = none ↔ k ∉ l.map Prod.fst := by
  intro l k
  induction l with
  | nil => simp [List.lookup]
  | cons kv rest ih =>
    obtain ⟨a, o⟩ := kv
    cases hba : (k == a) with
    | true =>
      have : k = a := by simpa using hba
      subst this
      simp [List.lookup]
    | false =>
      have hne : ¬ k = a := by simpa using hba
      simp [List.lookup, hba, ih, hne]

/-- The external-code filter keeps exactly the in-source kernel identities. -/
theorem ext_code_some_iff (f : ExternalFunction) (c : Nat) :
    (match f.code with
      | .kernelFn k => some k
      | .foreignStub => none) = some c ↔ f.code = .kernelFn c := by
  cases hf : f.code <;> simp

/-- Membership in the collected external kernels: some object of the design
references the identity through an in-source external function. -/
theorem mem_external_kernels_iff (objects : List (Nat × Object)) (c : Nat) :
    c ∈ external_kernels objects ↔
      ∃ kv ∈ objects, ∃ f ∈ kv.2.externals, f.code = .kernelFn c := by
  simp only [external_kernels, List.mem_filterMap, List.mem_flatten, List.mem_map]
  constructor
  · rintro ⟨f, ⟨exts, ⟨kv, hkv, rfl⟩, hf⟩, hsome⟩
    exact ⟨kv, hkv, f, hf, (ext_code_some_iff f c).mp hsome⟩
  · rintro ⟨kv, hkv, f, hf, hcode⟩
    exact ⟨f, ⟨kv.2.externals, ⟨kv, hkv, rfl⟩, hf⟩, (ext_code_some_iff f c).mpr hcode⟩

/-- Unfolding a successful modelled kernel compilation. -/
theorem compile_kernel_model_ok {E : Type} (w : DesignWorld E) (k : Nat)
    (o : Object) (h : compile_kernel_model w k = .ok o) :
    w.compile_err k = none ∧ o.fn_id = k ∧ o.externals = w.kernel_externals k := by
  unfold compile_kernel_model at h
  split at h
  · simp at h
  · rename_i herr
    obtain rfl : ({ fn_id := k, externals := w.kernel_externals k } : Object) = o := by
      simpa using h
    exact ⟨herr, rfl, rfl⟩

/-- What one iteration of the vacancy-checked insertion does: either the key
was occupied and the map is unchanged, or the kernel was compiled and
appended under its previously absent key. -/
theorem insert_external_ok {E : Type} (w : DesignWorld E)
    (objs objs2 : List (Nat × Object)) (k : Nat)
    (h : insert_external w objs k = .ok objs2) :
    (objs2 = objs ∧ k ∈ objs.map Prod.fst) ∨
    (∃ o, objs2 = objs ++ [(k, o)] ∧ k ∉ objs.map Prod.fst ∧
      compile_kernel_model w k = .ok o) := by
  unfold insert_external at h
  split at h
  · rename_i o hlk
    left
    obtain rfl : objs = objs2 := by simpa using h
    refine ⟨rfl, ?_⟩
    by_contra habs
    rw [← lookup_none_iff] at habs
    rw [habs] at hlk
    cases hlk
  · rename_i hlk
    right
    obtain ⟨o, ho, hobjs2⟩ := except_map_ok h
    exact ⟨o, hobjs2.symm, (lookup_none_iff objs k).mp hlk, ho⟩

/-- The state evolution of `elaborate_design`'s insertion fold: the map only
grows at the end, new entries come from the processed keys via successful
compilation, key distinctness is preserved, every processed key ends up
present, and an unchanged length means an unchanged map. -/
theorem elab_fold_ok {E : Type} (w : DesignWorld E) :
    ∀ (ks : List Nat) (objs objs2 : List (Nat × Object)),
      ks.foldlM (insert_external w) objs = .ok objs2 →
      (∀ kv ∈ objs2, kv ∈ objs ∨
        (kv.1 ∈ ks ∧ compile_kernel_model w kv.1 = .ok kv.2)) ∧
      objs <+: objs2 ∧
      ((objs.map Prod.fst).Nodup → (objs2.map Prod.fst).Nodup) ∧
      (∀ k ∈ ks, k ∈ objs2.map Prod.fst) ∧
      (objs2.length = objs.length → objs2 = objs) := by
  intro ks
  induction ks with
  | nil =>
    intro objs objs2 h
    obtain rfl : objs = objs2 := by simpa [List.foldlM, Pure.pure, Except.pure] using h
    exact ⟨fun kv hkv => Or.inl hkv, List.prefix_refl _, id, by simp, fun _ => rfl⟩
  | cons a as ih =>
    intro objs objs2 h
    rw [List.foldlM_cons] at h
    obtain ⟨objs1, hins, hrest⟩ := except_bind_ok h
    obtain ⟨hmem, hpre, hnd, hkeys, heqlen⟩ := ih objs1 objs2 hrest
    have hpremap : objs1.map Prod.fst <+: objs2.map Prod.fst := hpre.map _
    rcases insert_external_ok w objs objs1 a hins with ⟨rfl, hain⟩ | ⟨o, rfl, hnotin, hck⟩
    · refine ⟨?_, hpre, hnd, ?_, heqlen⟩
      · intro kv hkv
        rcases hmem kv hkv with hin | ⟨hks, hok⟩
        · exact Or.inl hin
        · exact Or.inr ⟨List.mem_cons_of_mem a hks, hok⟩
      · intro k hk
        rcases List.mem_cons.mp hk with rfl | hk2
        · exact hpremap.subset hain
        · exact hkeys k hk2
    · refine ⟨?_, ?_, ?_, ?_, ?_⟩
      · intro kv hkv
        rcases hmem kv hkv with hin | ⟨hks, hok⟩
        · rcases List.mem_append.mp hin with hin2 | hone
          · exact Or.inl hin2
          · obtain rfl : kv = (a, o) := by simpa using hone
            exact Or.inr ⟨List.mem_cons_self a as, hck⟩
        · exact Or.inr ⟨List.mem_cons_of_mem a hks, hok⟩
      · exact (List.prefix_append objs [(a, o)]).trans hpre
      · intro hnd0
        apply hnd
        simp only [List.map_append, List.map_cons, List.map_nil]
        rw [List.nodup_append]
        exact ⟨hnd0, List.nodup_singleton a, by simpa using hnotin⟩
      · intro k hk
        rcases List.mem_cons.mp hk with rfl | hk2
        · exact hpremap.subset (by simp)
        · exact hkeys k hk2
      · intro hlen
        have h1 : objs.length + 1 ≤ objs2.length := by
          have := hpre.length_le
          simpa using this
        omega

/-- `elaborate_design` preserves the elaboration invariant, only extends the
map, and a fixpoint (no growth) means the map is closed under the collected
external kernels. -/
theorem elaborate_design_good {E : Type} (w : DesignWorld E) (top : Nat)
    (objs objs2 : List (Nat × Object)) (hg : good_map w top objs)
    (h : elaborate_design w objs = .ok objs2) :
    good_map w top objs2 ∧ objs <+: objs2 ∧
    (objs2.length = objs.length →
      objs2 = objs ∧ ∀ c ∈ external_kernels objs, c ∈ objs.map Prod.fst) := by
  obtain ⟨hmem, hpre, hnd, hkeys, heqlen⟩ :=
    elab_fold_ok w (external_kernels objs) objs objs2 h
  obtain ⟨hg1, ⟨otop, hotop⟩, hg3⟩ := hg
  refine ⟨⟨hnd hg1, ⟨otop, hpre.subset hotop⟩, ?_⟩, hpre, ?_⟩
  · intro kv hkv
    rcases hmem kv hkv with hin | ⟨hks, hok⟩
    · exact hg3 kv hin
    · have hckp := compile_kernel_model_ok w kv.1 kv.2 hok
      refine ⟨hckp.2.1, hckp.2.2, hckp.1, ?_⟩
      rw [mem_external_kernels_iff] at hks
      obtain ⟨kv2, hkv2, f, hf, hfc⟩ := hks
      have hp2 := hg3 kv2 hkv2
      exact Reaches.step hp2.2.2.2 ⟨f, by rw [← hp2.2.1]; exact hf, hfc⟩
  · intro hlen
    have heq := heqlen hlen
    subst heq
    exact ⟨rfl, hkeys⟩

/-- The elaboration loop preserves the invariant and stops only at a closed
map. -/
theorem loop_good {E : Type} (w : DesignWorld E) (top : Nat) :
    ∀ (fuel : Nat) (objs objs2 : List (Nat × Object)), good_map w top objs →
      compile_design_loop w fuel objs = .ok objs2 →
      good_map w top objs2 ∧
      ∀ c ∈ external_kernels objs2, c ∈ objs2.map Prod.fst := by
  intro fuel
  induction fuel with
  | zero => intro objs objs2 hg h; simp [compile_design_loop] at h
  | succ fuel ih =>
    intro objs objs2 hg h
    unfold compile_design_loop at h
    split at h
    · simp at h
    · rename_i o2 helb
      obtain ⟨hg2, hpre, hfix⟩ := elaborate_design_good w top objs o2 hg helb
      split at h
      · rename_i hlen
        obtain rfl : o2 = objs2 := by simpa using h
        obtain ⟨rfl, hclosed⟩ := hfix hlen
        exact ⟨hg2, hclosed⟩
      · exact ih o2 objs2 hg2 h

/-- In a closed well-formed map, every identity reachable from the top is a
key. -/
theorem closed_complete {E : Type} (w : DesignWorld E) (top : Nat)
    (objs : List (Nat × Object)) (hg : good_map w top objs)
    (hclosed : ∀ c ∈ external_kernels objs, c ∈ objs.map Prod.fst) :
    ∀ id, Reaches w top id → id ∈ objs.map Prod.fst := by
  intro id hr
  induction hr with
  | refl =>
    obtain ⟨o, ho⟩ := hg.2.1
    exact List.mem_map.mpr ⟨(top, o), ho, rfl⟩
  | step hb hcall ihb =>
    obtain ⟨kv, hkv, hfst⟩ := List.mem_map.mp ihb
    obtain ⟨f, hf, hfc⟩ := hcall
    have hprops := hg.2.2 kv hkv
    apply hclosed
    rw [mem_external_kernels_iff]
    refine ⟨kv, hkv, f, ?_, hfc⟩
    rw [hprops.2.1, hfst]
    exact hf

/-- A successful `compile_design` yields a Module whose keys are distinct,
are exactly the reachable identities, and whose entries all compiled
successfully, with the top identity as given. -/
theorem compile_design_ok_spec {E : Type} (w : DesignWorld E) (fuel top : Nat)
    (m : Module) (h : compile_design w fuel top = .ok m) :
    (m.objects.map Prod.fst).Nodup ∧
    (∀ id, id ∈ m.objects.map Prod.fst ↔ Reaches w top id) ∧
    (∀ kv ∈ m.objects, w.compile_err kv.1 = none) ∧ m.top = top := by
  unfold compile_design at h
  split at h
  · simp at h
  · rename_i main hmain
    obtain ⟨objs2, hloop, hm⟩ := except_map_ok h
    have hck := compile_kernel_model_ok w top main hmain
    have hg0 : good_map w top [(main.fn_id, main)] := by
      refine ⟨by simp, ⟨main, by simp [hck.2.1]⟩, ?_⟩
      intro kv hkv
      obtain rfl : kv = (main.fn_id, main) := by simpa using hkv
      refine ⟨rfl, ?_, ?_, ?_⟩
      · rw [hck.2.1]; exact hck.2.2
      · rw [hck.2.1]; exact hck.1
      · rw [hck.2.1]; exact Reaches.refl
    obtain ⟨hg2, hclosed⟩ := loop_good w top fuel _ objs2 hg0 hloop
    subst hm
    refine ⟨hg2.1, ?_, ?_, hck.2.1⟩
    · intro id
      constructor
      · intro hid
        obtain ⟨kv, hkv, rfl⟩ := List.mem_map.mp hid
        exact (hg2.2.2 kv hkv).2.2.2
      · intro hr
        exact closed_complete w top objs2 hg2 hclosed id hr
    · intro kv hkv
      exact (hg2.2.2 kv hkv).2.2.1

/-- A well-formed map has no more entries than any finite superset of the
reachable identities. -/
theorem good_map_length_le {E : Type} (w : DesignWorld E) (top : Nat)
    (S : Finset Nat) (objs : List (Nat × Object)) (hg : good_map w top objs)
    (hS : ∀ id, Reaches w top id → id ∈ S) :
    objs.length ≤ S.card := by
  have hnd := hg.1
  have hsub : ∀ k ∈ objs.map Prod.fst, k ∈ S := by
    intro k hk
    obtain ⟨kv, hkv, rfl⟩ := List.mem_map.mp hk
    exact hS _ (hg.2.2 kv hkv).2.2.2
  calc objs.length = (objs.map Prod.fst).length := by simp
    _ = (objs.map Prod.fst).toFinset.card := (List.toFinset_card_of_nodup hnd).symm
    _ ≤ S.card := Finset.card_le_card (fun x hx => hsub x (List.mem_toFinset.mp hx))

/-- The insertion fold never fails when every processed kernel compiles. -/
theorem elab_fold_no_fail {E : Type} (w : DesignWorld E) :
    ∀ (ks : List Nat) (objs : List (Nat × Object)),
      (∀ k ∈ ks, w.compile_err k = none) →
      ∃ objs2, ks.foldlM (insert_external w) objs = .ok objs2 := by
  intro ks
  induction ks with
  | nil => intro objs _; exact ⟨objs, rfl⟩
  | cons a as ih =>
    intro objs hok
    rw [List.foldlM_cons]
    have ha := hok a (List.mem_cons_self a as)
    cases hlk : objs.lookup a with
    | some o =>
      obtain ⟨objs2, h2⟩ := ih objs (fun k hk => hok k (List.mem_cons_of_mem a hk))
      refine ⟨objs2, ?_⟩
      simp [insert_external, hlk, Bind.bind, Except.bind, h2]
    | none =>
      have hck : compile_kernel_model w a =
          .ok { fn_id := a, externals := w.kernel_externals a } := by
        unfold compile_kernel_model
        rw [ha]
      obtain ⟨objs2, h2⟩ :=
        ih (objs ++ [(a, { fn_id := a, externals := w.kernel_externals a })])
          (fun k hk => hok k (List.mem_cons_of_mem a hk))
      refine ⟨objs2, ?_⟩
      simp [insert_external, hlk, hck, Except.map, Bind.bind, Except.bind, h2]

/-- `elaborate_design` never fails on a well-formed map when every reachable
kernel compiles. -/
theorem elaborate_design_no_fail {E : Type} (w : DesignWorld E) (top : Nat)
    (objs : List (Nat × Object)) (hg : good_map w top objs)
    (hok : ∀ id, Reaches w top id → w.compile_err id = none) :
    ∃ objs2, elaborate_design w objs = .ok objs2 := by
  apply elab_fold_no_fail
  intro k hk
  apply hok
  rw [mem_external_kernels_iff] at hk
  obtain ⟨kv, hkv, f, hf, hfc⟩ := hk
  have hp := hg.2.2 kv hkv
  exact Reaches.step hp.2.2.2 ⟨f, by rw [← hp.2.1]; exact hf, hfc⟩

/-- With every reachable kernel compiling and the reachable set inside a
finite `S`, fuel `S.card + 1 - objs.length` rounds suffice: the loop
stabilizes before running out. -/
theorem loop_succeeds {E : Type} (w : DesignWorld E) (top : Nat)
    (S : Finset Nat) (hS : ∀ id, Reaches w top id → id ∈ S)
    (herr : ∀ id, Reaches w top id → w.compile_err id = none) :
    ∀ (fuel : Nat) (objs : List (Nat × Object)), good_map w top objs →
      S.card + 1 ≤ objs.length + fuel →
      ∃ objs2, compile_design_loop w fuel objs = .ok objs2 := by
  intro fuel
  induction fuel with
  | zero =>
    intro objs hg hbound
    exfalso
    have := good_map_length_le w top S objs hg hS
    omega
  | succ fuel ih =>
    intro objs hg hbound
    obtain ⟨o2, helb⟩ := elaborate_design_no_fail w top objs hg herr
    obtain ⟨hg2, hpre, _⟩ := elaborate_design_good w top objs o2 hg helb
    by_cases hlen : o2.length = objs.length
    · exact ⟨o2, by unfold compile_design_loop; rw [helb]; simp [hlen]⟩
    · have hmono := hpre.length_le
      obtain ⟨objs2, h2⟩ := ih o2 hg2 (by omega)
      exact ⟨objs2, by unfold compile_design_loop; rw [helb]; simp [hlen, h2]⟩

/-! ## Claim theorems -/

/-- C7: for every Kind and every Path containing at least one `DynamicIndex`,
`bit_range` fails and never returns a bit range; when the walk reaches the
dynamic element the failure is the unresolved-dynamic-index error itself
(second conjunct, stated at an arbitrary loop state). -/
theorem bit_range_dynamic_always_fails :
    (∀ (k : Kind) (p : Path), p.any_dynamic = true →
      is_error (bit_range k p) = true) ∧
    (∀ (r : BitRange) (k : Kind) (slot : Slot) (rest : List PathElement),
      bit_range_loop r k (.DynamicIndex slot :: rest) =
        .error "Dynamic indices must be resolved before calling bit_range") := by
  constructor
  · intro k p h
    exact bit_range_loop_any_dynamic_error p.elements ⟨0, Kind.bits k⟩ k h
  · intro r k slot rest
    rfl

/-- C7 witness: a one-element dynamic path over an 8-bit kind fails. -/
theorem bit_range_dynamic_always_fails_witness :
    is_error
      (bit_range (Kind.Bits 8) ⟨[PathElement.DynamicIndex (Slot.Register 0)]⟩) = true :=
  bit_range_dynamic_always_fails.1 (Kind.Bits 8)
    ⟨[PathElement.DynamicIndex (Slot.Register 0)]⟩ (by decide)

/-- C1: every Path in the list returned by a successful `path_star(k, p)` is
fully concrete (`any_dynamic() == false`) and has the same number of
elements as `p`, and the length of the returned list equals the product,
over every `DynamicIndex` element of `p`, of the length of the Array kind at
that position (`dynamic_index_product`); in particular a path with no
dynamic element yields exactly the singleton `[p]` (third conjunct), its
product being the empty product 1. -/
theorem path_star_concrete_count (k : Kind) (p : Path) (l : List Path)
    (h : path_star k p = .ok l) :
    (∀ q ∈ l, q.any_dynamic = false ∧ q.elements.length = p.elements.length) ∧
    dynamic_index_product k p.elements = some l.length ∧
    (p.any_dynamic = false → l = [p]) := by
  have hb := path_star_ok_bounded (count_dynamic p.elements) p.elements.length k p l
    (Nat.le_refl _) (Nat.le_refl _) h
  refine ⟨hb.1, hb.2, ?_⟩
  intro hdyn
  rw [path_star_of_not_dynamic k p hdyn] at h
  simpa using h.symm

/-- C1 witness: one dynamic index over a two-element array of bytes expands
to the two concrete index paths; both are concrete one-element paths, the
product is 2, and the singleton conjunct holds vacuously for this dynamic
path. -/
theorem path_star_concrete_count_witness :
    (∀ q ∈ [(⟨[.Index 0]⟩ : Path), ⟨[.Index 1]⟩], q.any_dynamic = false ∧
      q.elements.length =
        (⟨[.DynamicIndex (.Register 0)]⟩ : Path).elements.length) ∧
    dynamic_index_product (.Array (.Bits 8) 2)
        (⟨[.DynamicIndex (.Register 0)]⟩ : Path).elements =
      some ([(⟨[.Index 0]⟩ : Path), ⟨[.Index 1]⟩].length) ∧
    ((⟨[.DynamicIndex (.Register 0)]⟩ : Path).any_dynamic = false →
      [(⟨[.Index 0]⟩ : Path), ⟨[.Index 1]⟩] = [⟨[.DynamicIndex (.Register 0)]⟩]) :=
  path_star_concrete_count (.Array (.Bits 8) 2) ⟨[.DynamicIndex (.Register 0)]⟩
    [⟨[.Index 0]⟩, ⟨[.Index 1]⟩] (by
      rw [path_star]
      simp [Path.any_dynamic, PathElement.is_dynamic, List.range_succ,
        path_star_of_not_dynamic, Except.map, List.foldlM, Bind.bind, Except.bind,
        Pure.pure, Except.pure])

/-- C3: a Module returned by `compile_design` contains exactly the function
identities transitively reachable from the top kernel, each exactly once
(distinct keys), and no unreachable identity; and because identities already
in the map are never recompiled, the elaboration loop terminates on
recursive and mutually recursive call graphs — whenever the reachable set
lies in a finite set `S` and every reachable kernel compiles, fuel
`S.card + 1` rounds are enough for `compile_design` to return a Module. -/
theorem compile_design_closure_exact {E : Type} (w : DesignWorld E) (top : Nat) :
    (∀ (fuel : Nat) (m : Module), compile_design w fuel top = .ok m →
      (m.objects.map Prod.fst).Nodup ∧
      ∀ id, id ∈ m.objects.map Prod.fst ↔ Reaches w top id) ∧
    (∀ S : Finset Nat, (∀ id, Reaches w top id → id ∈ S) →
      (∀ id, Reaches w top id → w.compile_err id = none) →
      ∃ m, compile_design w (S.card + 1) top = .ok m) := by
  constructor
  · intro fuel m h
    have hs := compile_design_ok_spec w fuel top m h
    exact ⟨hs.1, hs.2.1⟩
  · intro S hS herr
    have htop : w.compile_err top = none := herr top Reaches.refl
    have hmain : compile_kernel_model w top =
        .ok { fn_id := top, externals := w.kernel_externals top } := by
      unfold compile_kernel_model
      rw [htop]
    have hg0 : good_map w top
        [(top, { fn_id := top, externals := w.kernel_externals top })] := by
      refine ⟨by simp,
        ⟨{ fn_id := top, externals := w.kernel_externals top }, by simp⟩, ?_⟩
      intro kv hkv
      obtain rfl : kv = (top, { fn_id := top, externals := w.kernel_externals top }) := by
        simpa using hkv
      exact ⟨rfl, rfl, htop, Reaches.refl⟩
    obtain ⟨objs2, hloop⟩ := loop_succeeds w top S hS herr (S.card + 1)
      [(top, { fn_id := top, externals := w.kernel_externals top })] hg0 (by simp)
    refine ⟨⟨objs2, top⟩, ?_⟩
    unfold compile_design
    rw [hmain]
    simp [Except.map, hloop]

/-- C3 witness: the mutually recursive world (0 calls 1, 1 calls 0) with
fuel 3 yields the Module with exactly the keys 0 and 1, each once, matching
reachability from 0. -/
theorem compile_design_closure_exact_witness :
    ((Module.mk [(0, ⟨0, [⟨.kernelFn 1⟩]⟩), (1, ⟨1, [⟨.kernelFn 0⟩]⟩)] 0).objects.map
      Prod.fst).Nodup ∧
    ∀ id,
      id ∈ (Module.mk [(0, ⟨0, [⟨.kernelFn 1⟩]⟩), (1, ⟨1, [⟨.kernelFn 0⟩]⟩)] 0).objects.map
        Prod.fst ↔ Reaches demo_world 0 id :=
  (compile_design_closure_exact demo_world 0).1 3
    (Module.mk [(0, ⟨0, [⟨.kernelFn 1⟩]⟩), (1, ⟨1, [⟨.kernelFn 0⟩]⟩)] 0) rfl

/-- C8: if compiling any kernel reachable from the top (hence discoverable
during elaboration) fails, `compile_design` never returns a Module, whatever
the loop bound: there is no partial Module of the kernels compiled before
the failure. -/
theorem compile_design_no_partial_module {E : Type} (w : DesignWorld E)
    (top id : Nat) (hreach : Reaches w top id)
    (hfail : w.compile_err id ≠ none) :
    ∀ (fuel : Nat) (m : Module), compile_design w fuel top ≠ .ok m := by
  intro fuel m h
  have hs := compile_design_ok_spec w fuel top m h
  have hid : id ∈ m.objects.map Prod.fst := (hs.2.1 id).mpr hreach
  obtain ⟨kv, hkv, rfl⟩ := List.mem_map.mp hid
  exact hfail (hs.2.2.1 kv hkv)

/-- C8 witness: kernel 0 calls kernel 1 and kernel 1 fails to compile, so no
fuel makes `compile_design` return a Module. -/
theorem compile_design_no_partial_module_witness :
    compile_design demo_fail_world 2 0 ≠ .ok (Module.mk [] 0) :=
  compile_design_no_partial_module demo_fail_world 0 1
    (Reaches.step Reaches.refl
      ⟨⟨.kernelFn 1⟩, by simp [demo_fail_world], rfl⟩)
    (by simp [demo_fail_world]) 2 (Module.mk [] 0)

/-- C4: `compile_kernel` runs the six optimization passes in the fixed order
remove-extra-registers, remove-unneeded-multiplexers, remove-extra-registers,
remove-unused-literals, pre-cast-literals, remove-useless-casts for exactly
two rounds, and then the type-check pass and the data-flow check pass
exactly once each, after and outside the rounds — shown by running the
pipeline under the trace interpretation, where the object is the list of
pass invocations so far and each pass appends its name. -/
theorem compile_kernel_pass_schedule :
    compile_kernel (fun _ : Unit => (.ok [] : Except Unit (List PassName)))
      (fun n tr => .ok (tr ++ [n])) () =
    .ok [.remove_extra_registers, .remove_unneeded_muxes, .remove_extra_registers,
      .remove_unused_literals, .pre_cast_literals, .remove_useless_casts,
      .remove_extra_registers, .remove_unneeded_muxes, .remove_extra_registers,
      .remove_unused_literals, .pre_cast_literals, .remove_useless_casts,
      .type_check, .data_flow_check] := by
  rfl

/-- C5: for every Object and every concrete input, simulating before any
optimization pass and after the full pass pipeline of `compile_kernel`
produces identical outputs, given that each individual pass preserves the
simulation semantics (the spec's per-pass contract; the pass bodies are not
among the files at hand). -/
theorem pipeline_semantics_preserved {Kern Obj E In Out : Type}
    (sim : Obj → In → Out) (front : Kern → Except E Obj)
    (pass : PassName → Obj → Except E Obj)
    (hpres : ∀ n o o2, pass n o = .ok o2 → ∀ x, sim o2 x = sim o x)
    (kern : Kern) (o0 obj2 : Obj)
    (hfront : front kern = .ok o0)
    (hrun : compile_kernel front pass kern = .ok obj2) :
    ∀ x, sim obj2 x = sim o0 x := by
  unfold compile_kernel at hrun
  obtain ⟨a0, h0, hrun⟩ := except_bind_ok hrun
  have ha0 : a0 = o0 := by rw [hfront] at h0; simpa using h0.symm
  obtain ⟨a1, h1, hrun⟩ := except_bind_ok hrun
  obtain ⟨a2, h2, hrun⟩ := except_bind_ok hrun
  obtain ⟨a3, h3, hrun⟩ := except_bind_ok hrun
  obtain rfl : a3 = obj2 := by simpa [Pure.pure, Except.pure] using hrun
  intro x
  rw [hpres _ _ _ h3 x, hpres _ _ _ h2 x, ← ha0]
  exact foldlM_preserves sim (fun o _ => optimization_round pass o)
    (fun o a o2 h => optimization_round_preserves sim pass hpres o o2 h)
    (List.range 2) a0 a1 h1 x

/-- C5 witness: with identity passes over `Obj := Nat`, the pipeline output
simulates identically to the front end's object. -/
theorem pipeline_semantics_preserved_witness :
    (fun (o : Nat) (_ : Unit) => o) 5 () = (fun (o : Nat) (_ : Unit) => o) 5 () :=
  pipeline_semantics_preserved (E := Unit)
    (fun (o : Nat) (_ : Unit) => o) (fun _ : Unit => .ok 5) (fun _ o => .ok o)
    (fun _ o o2 h _ => by cases h; rfl) () 5 5 rfl rfl ()

/-- C2: for every concrete Path (no `DynamicIndex`), a successful
`bit_range(k, p) = (r, k2)` satisfies `r.end - r.start = bits k2` with `r`
well-formed and contained in `0..bits k`; in particular the empty Path
returns `(0..bits k, k)` unchanged. -/
theorem bit_range_width_containment :
    (∀ (k : Kind) (p : Path) (r : BitRange) (k2 : Kind),
      p.any_dynamic = false →
      bit_range k p = .ok (r, k2) →
      r.stop - r.start = Kind.bits k2 ∧ r.start ≤ r.stop ∧ r.stop ≤ Kind.bits k) ∧
    (∀ k : Kind, bit_range k ⟨[]⟩ = .ok (⟨0, Kind.bits k⟩, k)) := by
  constructor
  · intro k p r k2 _hconc h
    have hok := bit_range_loop_range_ok p.elements ⟨0, Kind.bits k⟩ k (Kind.bits k)
      r k2 ⟨Nat.zero_le _, Nat.le_refl _, rfl⟩ h
    exact ⟨hok.2.2, hok.1, hok.2.1⟩
  · intro k
    rfl

/-- C2 witness: the scalar kind `Bits 8` with the empty path yields the full
range `0..8` and the kind unchanged. -/
theorem bit_range_width_containment_witness :
    (⟨0, 8⟩ : BitRange).stop - (⟨0, 8⟩ : BitRange).start = Kind.bits (Kind.Bits 8) ∧
    (⟨0, 8⟩ : BitRange).start ≤ (⟨0, 8⟩ : BitRange).stop ∧
    (⟨0, 8⟩ : BitRange).stop ≤ Kind.bits (Kind.Bits 8) :=
  bit_range_width_containment.1 (Kind.Bits 8) ⟨[]⟩ ⟨0, 8⟩ (Kind.Bits 8) rfl rfl

/-- C6: on an Enum kind, `bit_range` with the single-element path
`[EnumDiscriminant]` returns the low `width` bits of the current range under
`Lsb` ("LowBits") alignment — with unsigned signedness the resulting Kind is
the unsigned bit vector of the discriminant width — and the high `width`
bits under `Msb` ("HighBits") alignment; the resulting Kind is signed
exactly when the layout's signedness is signed; and on any non-Enum kind the
element fails. -/
theorem bit_range_enum_discriminant :
    (∀ (n : String) (vs : List (String × Int × Kind)) (lay : DiscriminantLayout),
      lay.alignment = .Lsb → lay.ty = .Unsigned →
      bit_range (.Enum n vs lay) ⟨[.EnumDiscriminant]⟩ =
        .ok (⟨0, lay.width⟩, Kind.Bits lay.width)) ∧
    (∀ (n : String) (vs : List (String × Int × Kind)) (lay : DiscriminantLayout),
      lay.alignment = .Msb →
      bit_range (.Enum n vs lay) ⟨[.EnumDiscriminant]⟩ =
        .ok (⟨Kind.bits (.Enum n vs lay) - lay.width, Kind.bits (.Enum n vs lay)⟩,
          if lay.ty = DiscriminantType.Signed then Kind.Signed lay.width
          else Kind.Bits lay.width)) ∧
    (∀ (n : String) (vs : List (String × Int × Kind)) (lay : DiscriminantLayout)
        (r : BitRange) (k2 : Kind),
      bit_range (.Enum n vs lay) ⟨[.EnumDiscriminant]⟩ = .ok (r, k2) →
      ((k2 = Kind.Signed lay.width ↔ lay.ty = DiscriminantType.Signed) ∧
       (k2 = Kind.Bits lay.width ↔ lay.ty = DiscriminantType.Unsigned))) ∧
    (∀ k : Kind, Kind.is_enum k = false →
      is_error (bit_range k ⟨[.EnumDiscriminant]⟩) = true) := by
  refine ⟨?_, ?_, ?_, ?_⟩
  · intro n vs lay ha ht
    simp [bit_range, bit_range_loop, ha, ht, Kind.make_bits]
  · intro n vs lay ha
    cases hty : lay.ty <;>
      simp [bit_range, bit_range_loop, ha, hty, Kind.make_bits, Kind.make_signed]
  · intro n vs lay r k2 h
    cases hty : lay.ty <;>
      cases ha : lay.alignment <;>
        simp [bit_range, bit_range_loop, ha, hty, Kind.make_bits, Kind.make_signed] at h <;>
          (obtain ⟨h1, h2⟩ := h; subst h2; simp [hty])
  · intro k h
    cases k <;> simp [Kind.is_enum] at h ⊢ <;> rfl

/-- C6 witness: a two-variant enum with a 2-bit unsigned `Lsb` discriminant
layout yields the range `0..2` and the kind `Bits 2`. -/
theorem bit_range_enum_discriminant_witness :
    bit_range
        (.Enum "e" [("A", 0, .Empty), ("B", 1, .Bits 6)] ⟨2, .Lsb, .Unsigned⟩)
        ⟨[.EnumDiscriminant]⟩ =
      .ok (⟨0, 2⟩, Kind.Bits 2) :=
  bit_range_enum_discriminant.1 "e" [("A", 0, .Empty), ("B", 1, .Bits 6)]
    ⟨2, .Lsb, .Unsigned⟩ rfl rfl

/-- C9: `strip_prefix(p, q)` fails exactly when `q` is not a prefix of `p`
(the sequence-prefix test `is_prefix_of` computes), and when it succeeds the
result is the remaining suffix of `p` after `q`: the unique `s` with
`q.join(s) = p`. -/
theorem strip_prefix_fails_iff :
    (∀ p q : Path,
      is_error (Path.strip_prefix p q) = true ↔ Path.is_prefix_of q p = false) ∧
    (∀ p q : Path, Path.is_prefix_of q p = true →
      ∃ s : Path, Path.strip_prefix p q = .ok s ∧ Path.join q s = p) := by
  constructor
  · intro p q
    by_cases h : Path.is_prefix_of q p = true
    · simp [Path.strip_prefix, h, is_error]
    · simp only [Bool.not_eq_true] at h
      simp [Path.strip_prefix, h, is_error]
  · intro p q h
    obtain ⟨p1⟩ := p
    obtain ⟨q1⟩ := q
    obtain ⟨t, ht⟩ := (is_prefix_of_eq_true_iff q1 p1).mp h
    refine ⟨⟨p1.drop q1.length⟩, by simp [Path.strip_prefix, h], ?_⟩
    subst ht
    simp [Path.join, List.drop_left]

/-- C9 witness: at `p = [.a]`, `q = []`, the prefix test holds and stripping
returns the suffix `p` itself joined onto the empty prefix. -/
theorem strip_prefix_fails_iff_witness :
    ∃ s : Path, Path.strip_prefix ⟨[PathElement.Field "a"]⟩ ⟨[]⟩ = .ok s ∧
      Path.join ⟨[]⟩ s = ⟨[PathElement.Field "a"]⟩ :=
  strip_prefix_fails_iff.2 ⟨[PathElement.Field "a"]⟩ ⟨[]⟩ (by decide)

/-- C10: `join` followed by `strip_prefix` of the same prefix is a
round-trip: `p.is_prefix_of(p.join(q))` holds and
`(p.join(q)).strip_prefix(p)` returns exactly `q`; moreover the empty Path
is a prefix of every Path and every Path is a prefix of itself. -/
theorem join_then_strip_round_trip :
    ∀ p q : Path,
      Path.is_prefix_of p (Path.join p q) = true ∧
      Path.strip_prefix (Path.join p q) p = .ok q ∧
      Path.is_prefix_of ⟨[]⟩ p = true ∧
      Path.is_prefix_of p p = true := by
  intro p q
  obtain ⟨p1⟩ := p
  obtain ⟨q1⟩ := q
  have h1 : Path.is_prefix_of ⟨p1⟩ (Path.join ⟨p1⟩ ⟨q1⟩) = true := by
    rw [Path.join, is_prefix_of_eq_true_iff]
    exact ⟨q1, rfl⟩
  refine ⟨h1, ?_, ?_, ?_⟩
  · simp [Path.strip_prefix, Path.join] at h1 ⊢
    simp [h1, List.drop_left]
  · rw [is_prefix_of_eq_true_iff]; exact ⟨p1, rfl⟩
  · rw [is_prefix_of_eq_true_iff]

end Rhdl
